import Mathlib

/-!
Shallow embedding of the `hoist-modules` package hoister (`src/index.js`).

The program deduplicates a Node.js dependency tree: it builds a tree of
`ModuleRecord`s from the installed `node_modules` layout, indexes an
optional shared `.pnpm` store, and then copies each required dependency to
a flat target directory, reusing an already hoisted compatible copy and
nesting incompatible versions beneath their requirer.

Modelling conventions:
- JavaScript objects used as string-keyed maps are association lists in
  insertion order; `jsGet`/`objSet` model property read/write.
- Filesystem effects (`copyDir` invocations), `console.error` logging and
  the mutable `targetDir` property of module records are made explicit as
  state (`HState`); module records are otherwise immutable, matching the
  source, and a record is identified by its unique on-disk `dir`.
- The mutually recursive async functions `_copyDependency`,
  `copyDependency` and `copyDependencies` are embedded as a fuel-indexed
  interpreter `hoistRun` over a call type `HCall`; each constructor's
  branch is a direct transcription of the corresponding source function.
  Fuel exhaustion returns the state unchanged (a modelling artifact only;
  the source has no recursion bound).
- The external `semver` library (`satisfies`, `lt`, `coerce`) is a
  parameter (`Semver`); a concrete instance for exact and caret ranges is
  provided for the worked examples.
-/

/-- Read of a JavaScript object property `m[k]`, with the object
represented as an association list in insertion order. -/
def jsGet {α : Type} (m : List (String × α)) (k : String) : Option α :=
  (m.find? (fun p => p.1 == k)).map (fun p => p.2)

/-- Write of a JavaScript object property `m[k] = v`: overwrites the value
at an existing key in place, otherwise appends the new key at the end
(JavaScript object insertion order). -/
def objSet {α : Type} (m : List (String × α)) (k : String) (v : α) : List (String × α) :=
  if m.any (fun p => p.1 == k) then
    m.map (fun p => if p.1 == k then (k, v) else p)
  else
    m ++ [(k, v)]

/-- Model of `Object.assign({}, base, upd)`: every key of `upd` is written
on top of `base`, later writes overriding earlier values. -/
def objectAssign {α : Type} (base upd : List (String × α)) : List (String × α) :=
  upd.foldl (fun acc p => objSet acc p.1 p.2) base

/-- Model of `Array.prototype.join(sep)`. -/
def jsJoin (sep : String) : List String → String
  | [] => ""
  | [x] => x
  | x :: y :: rest => x ++ sep ++ jsJoin sep (y :: rest)

/-- Model of `path.join(a, b)` for the forward-slash paths used here
(no normalization is needed for the paths the program builds). -/
def pjoin (a b : String) : String := a ++ "/" ++ b

/-- One `ModuleRecord` as built by `buildDependencyTree` (src/index.js,
lines 63-69): manifest `name` and `version`, the on-disk `dir`, the
declared ranges `wantDependencies` and the records found in the package's
own `node_modules` (`installedDependencies`).  The mutable `targetDir`
property assigned during hoisting is modelled separately in `HState`,
keyed by the record's unique `dir`. -/
inductive ModuleRecord : Type where
  | mk (name : String) (version : String) (dir : String)
      (wantDependencies : List (String × String))
      (installedDependencies : List (String × ModuleRecord))

def ModuleRecord.name : ModuleRecord → String
  | .mk n _ _ _ _ => n

def ModuleRecord.version : ModuleRecord → String
  | .mk _ v _ _ _ => v

def ModuleRecord.dir : ModuleRecord → String
  | .mk _ _ d _ _ => d

def ModuleRecord.wantDependencies : ModuleRecord → List (String × String)
  | .mk _ _ _ w _ => w

def ModuleRecord.installedDependencies : ModuleRecord → List (String × ModuleRecord)
  | .mk _ _ _ _ i => i

/-- Character-level worker for `jsSplitDot`: `acc` holds the characters of
the current segment in reverse. -/
def splitDotAux : List Char → List Char → List String
  | [], acc => [String.mk acc.reverse]
  | c :: cs, acc =>
    if c = '.' then String.mk acc.reverse :: splitDotAux cs []
    else splitDotAux cs (c :: acc)

/-- Model of JavaScript `version.split('.')`: the segments between the
dots, including empty segments. -/
def jsSplitDot (s : String) : List String :=
  splitDotAux s.data []

/-- Decimal digit value of a character, if it is a digit. -/
def decDigit : Char → Option Nat
  | c => if '0' ≤ c ∧ c ≤ '9' then some (c.toNat - '0'.toNat) else none

/-- Value of a nonempty all-digit run, accumulator style. -/
def decNatAux : List Char → Nat → Option Nat
  | [], acc => some acc
  | c :: cs, acc =>
    match decDigit c with
    | some d => decNatAux cs (acc * 10 + d)
    | none => none

/-- Model of JavaScript `Number(segment)` applied to one version segment
(src/index.js, lines 115-116): the empty string becomes `0`, an
optionally-signed run of decimal digits becomes its value, and anything
else (a non-numeric segment) becomes `none`, modelling `NaN`. -/
def jsNumber (s : String) : Option Int :=
  match s.data with
  | [] => some 0
  | '-' :: cs =>
    if cs.isEmpty then none
    else (decNatAux cs 0).map (fun n => -(n : Int))
  | cs => (decNatAux cs 0).map (fun n => (n : Int))

/-- The `version.split('.').map(Number)` step of
`compareVersionsDescending` (src/index.js, lines 115-116). -/
def versionParts (v : String) : List (Option Int) :=
  (jsSplitDot v).map jsNumber

/-- JavaScript `x > y` where either operand may be `NaN` or `undefined`
(both modelled by `none`): such a comparison is always `false`. -/
def jsGtO : Option Int → Option Int → Bool
  | some a, some b => decide (a > b)
  | _, _ => false

/-- The loop of `compareVersionsDescending` (src/index.js, lines 118-126):
iterate over the indices of the first list; out-of-range access on the
second list yields `undefined` (`none`), whose comparisons are `false`. -/
def cmpParts : List (Option Int) → List (Option Int) → Int
  | [], _ => 0
  | a :: as, [] =>
    if jsGtO a none then -1
    else if jsGtO none a then 1
    else cmpParts as []
  | a :: as, b :: bs =>
    if jsGtO a b then -1
    else if jsGtO b a then 1
    else cmpParts as bs

/-- `compareVersionsDescending(a, b)` (src/index.js, lines 114-127):
splits both `version` strings on `'.'`, converts each segment with
`Number`, and compares pairwise most-significant first; `-1` sorts `a`
before `b` (descending). -/
def compareVersionsDescending (a b : ModuleRecord) : Int :=
  cmpParts (versionParts a.version) (versionParts b.version)

/-- Insert one element into an already sorted list, keeping it before the
first element it does not have to follow (stable). -/
def sortInsert (x : ModuleRecord) : List ModuleRecord → List ModuleRecord
  | [] => [x]
  | y :: ys =>
    if compareVersionsDescending x y ≤ 0 then x :: y :: ys
    else y :: sortInsert x ys

/-- Model of `cachedModuleVersions.sort(compareVersionsDescending)`
(src/index.js, line 179) as a stable insertion sort with the same
comparator. -/
def jsSort (l : List ModuleRecord) : List ModuleRecord := l.foldr sortInsert []

/-- Interface of the external `semver` library as consumed by the source
(`semver.satisfies`, `semver.lt`, `semver.coerce`); the hoisting engine is
parametric in it. -/
structure Semver : Type where
  satisfies : String → String → Bool
  lt : String → String → Bool
  coerce : String → String

/-- The candidate scan of `copyDependency` (src/index.js, lines 184-196):
walk the descending-sorted candidates; a non-satisfying candidate below
`semver.coerce(requiredVersion)` breaks the loop, any other non-satisfying
candidate is skipped, and a satisfying candidate overwrites
`lastSatisfyingVersion` before the scan continues. -/
def findLastSatisfying (sv : Semver) (requiredVersion : String) :
    List ModuleRecord → Option ModuleRecord → Option ModuleRecord
  | [], last => last
  | m :: rest, last =>
    if !(sv.satisfies m.version requiredVersion) then
      if sv.lt m.version (sv.coerce requiredVersion) then last
      else findLastSatisfying sv requiredVersion rest last
    else
      findLastSatisfying sv requiredVersion rest (some m)

/-- The requirer-chain string built for diagnostics (src/index.js, lines
174 and 202): one tab-indented `name:version` line per stack entry, joined
with CRLF. -/
def stackString (depStack : List ModuleRecord) : String :=
  jsJoin "\r\n" (depStack.map (fun module => "\t" ++ module.name ++ ":" ++ module.version))

/-- The `console.error` message emitted when the required name is absent
from the `.pnpm` cache index entirely (src/index.js, line 175). -/
def unresolvedMissingMsg (moduleName requiredVersion : String)
    (depStack : List ModuleRecord) : String :=
  "Could not find " ++ moduleName ++ ":" ++ requiredVersion ++
    " in .pnpm cache. Required by:\r\n" ++ stackString depStack

/-- The `console.error` message emitted when the cache holds the name but
no version satisfies the required range (src/index.js, lines 203-208). -/
def unresolvedNoVersionMsg (moduleName requiredVersion : String)
    (cachedModuleVersions depStack : List ModuleRecord) : String :=
  "Could not find a satisfying version of " ++ moduleName ++ ":" ++ requiredVersion ++
    " in .pnpm cache.\r\n" ++ "Found versions:\r\n" ++ "  " ++
    jsJoin "\r\n  " (cachedModuleVersions.map (fun v => v.version)) ++ "\r\n" ++
    "Required by:\r\n" ++ stackString depStack

/-- Explicit state of one hoist run: the shared `copyMap` object, the
current value of every record's mutable `targetDir` property (keyed by the
record's `dir`), and event logs, most recent first: every `copyDir`
invocation as a `(source, destination)` pair, every assignment to a
`targetDir` property as a `(record dir, value)` pair, every
`console.error` message, and (as a pure observer) the name of every
package placed at the target root by the fresh-copy branch. -/
structure HState : Type where
  copyMap : List (String × ModuleRecord)
  targetDirs : List (String × String)
  copies : List (String × String)
  assigns : List (String × String)
  logs : List String
  rootPlacements : List String

/-- Constant data threaded unchanged through the mutually recursive copy
functions: the semver library, the `.pnpm` cache index
(`cachedModuleMap`, name to version to record) and the target root
directory.  The unused `pnpmCacheDir` parameter of the source functions
is omitted. -/
structure HoistEnv : Type where
  sv : Semver
  cachedModuleMap : List (String × List (String × ModuleRecord))
  targetDir : String

/-- Pending call of the hoisting engine: `cdep1` is `_copyDependency`
(src/index.js, lines 132-159), `cdep` is `copyDependency` (lines
164-214) and `cdeps` is the loop of `copyDependencies` (lines 219-225)
over the remaining `wantDependencies` entries. -/
inductive HCall : Type where
  | cdep1 (module : ModuleRecord) (requiredVersion : String)
      (requiredBy : ModuleRecord) (depStack : List ModuleRecord)
  | cdep (depTree : ModuleRecord) (moduleName requiredVersion : String)
      (depStack : List ModuleRecord)
  | cdeps (depTree : ModuleRecord) (want : List (String × String))
      (depStack : List ModuleRecord)

/-- Fuel-indexed interpreter for the mutually recursive functions
`_copyDependency` / `copyDependency` / `copyDependencies`.  Each branch
transcribes the corresponding source function; the returned `Nat` is the
module count the source returns.  Fuel `0` returns the state unchanged
(modelling artifact; see the module docstring). -/
def hoistRun (env : HoistEnv) : Nat → HCall → HState → Nat × HState
  | 0, _, st => (0, st)
  | Nat.succ fuel, HCall.cdep1 module requiredVersion requiredBy depStack, st =>
    let targetModuleDir := pjoin env.targetDir module.name
    match jsGet st.copyMap module.name with
    | some existingCopy =>
      if env.sv.satisfies existingCopy.version requiredVersion then
        -- Already have copied a version that satisfies our requirements.
        (0, st)
      else
        -- Otherwise install the required version where it is needed.
        let requirerTargetDir := (jsGet st.targetDirs requiredBy.dir).getD "undefined"
        let targetModuleVersionDir := pjoin (pjoin requirerTargetDir "node_modules") module.name
        let st1 : HState :=
          { st with
            copies := (module.dir, targetModuleVersionDir) :: st.copies,
            targetDirs := objSet st.targetDirs module.dir targetModuleVersionDir,
            assigns := (module.dir, targetModuleVersionDir) :: st.assigns }
        let r := hoistRun env fuel (HCall.cdeps module module.wantDependencies depStack) st1
        (1 + r.1, r.2)
    | none =>
      let st1 : HState :=
        { st with
          copies := (module.dir, targetModuleDir) :: st.copies,
          copyMap := (module.name, module) :: st.copyMap,
          targetDirs := objSet st.targetDirs module.dir targetModuleDir,
          assigns := (module.dir, targetModuleDir) :: st.assigns,
          rootPlacements := module.name :: st.rootPlacements }
      let r := hoistRun env fuel (HCall.cdeps module module.wantDependencies depStack) st1
      (1 + r.1, r.2)
  | Nat.succ fuel, HCall.cdep depTree moduleName requiredVersion depStack, st =>
    match jsGet depTree.installedDependencies moduleName with
    | some installedModule =>
      -- Copy from local node_modules directory.
      hoistRun env fuel
        (HCall.cdep1 installedModule requiredVersion depTree (installedModule :: depStack)) st
    | none =>
      -- Copy from .pnpm cache.
      match jsGet env.cachedModuleMap moduleName with
      | none =>
        (0, { st with
              logs := unresolvedMissingMsg moduleName requiredVersion depStack :: st.logs })
      | some cachedModule =>
        let cachedModuleVersions := jsSort (cachedModule.map (fun p => p.2))
        match findLastSatisfying env.sv requiredVersion cachedModuleVersions none with
        | some lastSatisfyingVersion =>
          hoistRun env fuel
            (HCall.cdep1 lastSatisfyingVersion requiredVersion depTree
              (lastSatisfyingVersion :: depStack)) st
        | none =>
          (0, { st with
                logs := unresolvedNoVersionMsg moduleName requiredVersion
                  cachedModuleVersions depStack :: st.logs })
  | Nat.succ fuel, HCall.cdeps depTree want depStack, st =>
    match want with
    | [] => (0, st)
    | (moduleName, requiredVersion) :: rest =>
      let r := hoistRun env fuel (HCall.cdep depTree moduleName requiredVersion depStack) st
      let r2 := hoistRun env fuel (HCall.cdeps depTree rest depStack) r.2
      (r.1 + r2.1, r2.2)

/-- The hoisting part of `hoist` (src/index.js, lines 263-269): assign the
root record's `targetDir`, start with an empty `copyMap` and process the
root's `wantDependencies` with the root itself as the requirer chain. -/
def hoistModel (env : HoistEnv) (fuel : Nat) (depTree : ModuleRecord) : Nat × HState :=
  let st0 : HState :=
    { copyMap := [],
      targetDirs := objSet [] depTree.dir env.targetDir,
      copies := [], assigns := [], logs := [], rootPlacements := [] }
  hoistRun env fuel (HCall.cdeps depTree depTree.wantDependencies [depTree]) st0

/-- Parse an exact dotted three-segment numeric version string. -/
def parseV3 (s : String) : Option (Int × Int × Int) :=
  match (jsSplitDot s).map jsNumber with
  | [some a, some b, some c] => some (a, b, c)
  | _ => none

/-- Numeric order on version triples, most-significant first. -/
def v3Lt : Int × Int × Int → Int × Int × Int → Bool
  | (a1, b1, c1), (a2, b2, c2) =>
    decide (a1 < a2) || (decide (a1 = a2) && (decide (b1 < b2) ||
      (decide (b1 = b2) && decide (c1 < c2))))

/-- Modelled from the spec: `semver.lt` of the external semver library
(an excluded collaborator, consumed as "the semantic-version
compatibility test"), restricted to full three-segment numeric versions
as used in the worked examples. -/
def modelLt (a b : String) : Bool :=
  match parseV3 a, parseV3 b with
  | some x, some y => v3Lt x y
  | _, _ => false

/-- Modelled from the spec: `semver.coerce` of the external semver
library, on the exact and caret ranges used in the worked examples it
returns the numeric baseline of the range (for a caret range, the version
after the caret). -/
def modelCoerce (range : String) : String :=
  match range.data with
  | '^' :: rest => String.mk rest
  | _ => range

/-- Modelled from the spec: `semver.satisfies` of the external semver
library for exact ranges (`"x.y.z"`, equality) and caret ranges
(`"^x.y.z"`: at least the baseline and no change of the leftmost nonzero
component). -/
def modelSatisfies (version range : String) : Bool :=
  match range.data with
  | '^' :: rest =>
    match parseV3 (String.mk rest), parseV3 version with
    | some (a, b, c), some (x, y, z) =>
      if decide (0 < a) then decide (x = a) && !(v3Lt (x, y, z) (a, b, c))
      else if decide (0 < b) then decide (x = a) && decide (y = b) && !(v3Lt (x, y, z) (a, b, c))
      else decide ((x, y, z) = (a, b, c))
    | _, _ => false
  | _ =>
    match parseV3 range, parseV3 version with
    | some r, some v => decide (v = r)
    | _, _ => false

/-- The concrete semver instance used by the worked examples. -/
def modelSemver : Semver :=
  { satisfies := modelSatisfies, lt := modelLt, coerce := modelCoerce }

/-- The manifest fields consumed by `buildDependencyTree` (src/index.js,
lines 48 and 58-65): `dependencies` and `devDependencies` are optional
(absent fields model `undefined`). -/
structure PackageJson : Type where
  name : String
  version : String
  dependencies : Option (List (String × String))
  devDependencies : Option (List (String × String))

/-- Caller options as consulted by `buildDependencyTree`
(`options?.devDependencies`, src/index.js, line 59). -/
structure BuildOptions : Type where
  devDependencies : Bool

/-- The `wantDependencies` computation of `buildDependencyTree`
(src/index.js, lines 58-61): the manifest's `dependencies` or an empty
object, and, when development mode is requested,
`Object.assign({}, wantDependencies, packageJson.devDependencies || {})`. -/
def wantDependenciesOf (packageJson : PackageJson) (options : BuildOptions) :
    List (String × String) :=
  let wantDependencies := packageJson.dependencies.getD []
  if options.devDependencies then
    objectAssign wantDependencies (packageJson.devDependencies.getD [])
  else
    wantDependencies

/-- A directory subtree on disk: a file with its byte content, or a
directory with its named entries in listing order. -/
inductive FsEntry : Type where
  | file (content : String)
  | dir (entries : List (String × FsEntry))

mutual

/-- Purified `copyDir` (src/index.js, lines 75-94) acting on a source
subtree and returning the subtree created at the destination (the
destination is created fresh by `fs.ensureDir`): every entry whose name
is not `node_modules` is copied, a directory entry by recursing into
`copyDir` itself and a file entry verbatim by `fs.copy`. -/
def copyTree : FsEntry → FsEntry
  | .file content => .file content
  | .dir entries => .dir (copyDirEntries entries)

/-- Entry-list part of `copyTree`: the source's
`entries.filter(name !== "node_modules").map(copy)` expressed entry by
entry. -/
def copyDirEntries : List (String × FsEntry) → List (String × FsEntry)
  | [] => []
  | (entryName, entry) :: rest =>
    if entryName != "node_modules" then
      (entryName, copyTree entry) :: copyDirEntries rest
    else
      copyDirEntries rest

end

mutual

/-- Recursive absence of any entry named `node_modules`, at every level of
a subtree. -/
def noNodeModules : FsEntry → Bool
  | .file _ => true
  | .dir entries => noNodeModulesEntries entries

/-- Entry-list part of `noNodeModules`. -/
def noNodeModulesEntries : List (String × FsEntry) → Bool
  | [] => true
  | (entryName, entry) :: rest =>
    entryName != "node_modules" && noNodeModules entry && noNodeModulesEntries rest

end

/-- A store candidate record used by the worked examples, identified by
its version. -/
def exV (v : String) : ModuleRecord :=
  ModuleRecord.mk "pkg" v ("store/pkg@" ++ v) [] []

/-- Pairwise integer comparison as described by the specification:
most-significant component first, the first differing component decides,
the greater one sorting first (descending). -/
def specLexCompare : List Int → List Int → Int
  | a :: as, b :: bs =>
    if a > b then -1 else if a < b then 1 else specLexCompare as bs
  | _, _ => 0

/-- Resolver result as the specification describes it: restrict the
descending-sorted candidates to the prefix scanned before the early stop
(a candidate that neither satisfies the range nor is at or above the
coerced baseline ends the scan), and of the satisfying candidates in that
prefix take the last one recorded. -/
def resolverSpecResult (sv : Semver) (requiredVersion : String)
    (candidates : List ModuleRecord) : Option ModuleRecord :=
  ((candidates.takeWhile (fun m =>
      sv.satisfies m.version requiredVersion ||
      !(sv.lt m.version (sv.coerce requiredVersion)))).filter
    (fun m => sv.satisfies m.version requiredVersion)).getLast?

/-- State invariant threaded by the `copyMap` claims: the `copyMap` has at
most one entry per name, the names placed at the target root are pairwise
distinct, and every placed name has a `copyMap` entry. -/
def CopyMapInv (st : HState) : Prop :=
  (st.copyMap.map Prod.fst).Nodup ∧ st.rootPlacements.Nodup ∧
  ∀ n ∈ st.rootPlacements, (jsGet st.copyMap n).isSome

/-- Locally installed copy of `bar` in the worked hoisting scenario. -/
def barLocal : ModuleRecord := .mk "bar" "1.0.0" "R/node_modules/bar" [] []

/-- Package `A`, requiring `bar` at `2.0.0`, in the worked scenario. -/
def modA : ModuleRecord := .mk "A" "1.0.0" "R/node_modules/A" [("bar", "2.0.0")] []

/-- Package `B`, also requiring `bar` at `2.0.0`, in the worked scenario. -/
def modB : ModuleRecord := .mk "B" "1.0.0" "R/node_modules/B" [("bar", "2.0.0")] []

/-- The store copy of `bar@2.0.0` shared by every requirer that resolves
to it from the cache index. -/
def bar2 : ModuleRecord := .mk "bar" "2.0.0" "S/bar2" [] []

/-- Root package of the worked scenario: wants `bar`, `A` and `B`, all
locally installed. -/
def rootC4 : ModuleRecord :=
  .mk "root" "1.0.0" "R"
    [("bar", "1.0.0"), ("A", "1.0.0"), ("B", "1.0.0")]
    [("bar", barLocal), ("A", modA), ("B", modB)]

/-- Environment of the worked scenario: the cache index offers only
`bar@2.0.0`, and the target root is `T`. -/
def envC4 : HoistEnv :=
  { sv := modelSemver, cachedModuleMap := [("bar", [("2.0.0", bar2)])], targetDir := "T" }

/-- Initial hoist state of the worked scenario, with the root record's
`targetDir` already assigned as `hoist` does. -/
def stInit : HState := ⟨[], [("R", "T")], [], [], [], []⟩

theorem jsGtO_self (a : Option Int) : jsGtO a a = false := by
  cases a <;> simp [jsGtO]

theorem jsGtO_none_right (a : Option Int) : jsGtO a none = false := by
  cases a <;> rfl

theorem jsGtO_none_left (a : Option Int) : jsGtO none a = false := by
  cases a <;> rfl

theorem cmpParts_nil_right (t : List (Option Int)) : cmpParts t [] = 0 := by
  induction t with
  | nil => rfl
  | cons a as ih => simp [cmpParts, jsGtO_none_right, jsGtO_none_left, ih]

theorem cmpParts_append_right (xs t : List (Option Int)) : cmpParts xs (xs ++ t) = 0 := by
  induction xs with
  | nil => rfl
  | cons a as ih => simp [cmpParts, jsGtO_self, ih]

theorem cmpParts_append_left (xs t : List (Option Int)) : cmpParts (xs ++ t) xs = 0 := by
  induction xs with
  | nil => simpa using cmpParts_nil_right t
  | cons a as ih => simp [cmpParts, jsGtO_self, ih]

theorem cmpParts_map_some (as : List Int) : ∀ bs : List Int, as.length = bs.length →
    cmpParts (as.map some) (bs.map some) = specLexCompare as bs := by
  induction as with
  | nil =>
    intro bs _
    simp [cmpParts, specLexCompare]
  | cons a as ih =>
    intro bs h
    cases bs with
    | nil => simp at h
    | cons b bs =>
      by_cases hab : a > b
      · simp [cmpParts, specLexCompare, jsGtO, hab]
      · by_cases hba : b > a
        · simp [cmpParts, specLexCompare, jsGtO, hab, hba]
        · have hlen : as.length = bs.length := by simpa using h
          simp [cmpParts, specLexCompare, jsGtO, hab, hba, lt_iff_lt_of_le_iff_le,
            ih bs hlen]

theorem getLast?_cons_or {α : Type} (a : α) (l : List α) :
    (a :: l).getLast? = l.getLast?.or (some a) := by
  induction l with
  | nil => rfl
  | cons b bs ih =>
    cases hbs : (b :: bs).getLast? with
    | none => simp [List.getLast?_isSome] at hbs
    | some x => simp [List.getLast?_cons_cons, hbs]

theorem findLastSatisfying_eq_spec (sv : Semver) (r : String) :
    ∀ (l : List ModuleRecord) (acc : Option ModuleRecord),
    findLastSatisfying sv r l acc = (resolverSpecResult sv r l).or acc := by
  intro l
  induction l with
  | nil => intro acc; simp [findLastSatisfying, resolverSpecResult]
  | cons m rest ih =>
    intro acc
    by_cases hs : sv.satisfies m.version r
    · have h1 : findLastSatisfying sv r (m :: rest) acc = findLastSatisfying sv r rest (some m) := by
        simp [findLastSatisfying, hs]
      have h2 : resolverSpecResult sv r (m :: rest)
          = (m :: ((rest.takeWhile (fun m => sv.satisfies m.version r ||
              !(sv.lt m.version (sv.coerce r)))).filter
              (fun m => sv.satisfies m.version r))).getLast? := by
        simp [resolverSpecResult, List.takeWhile_cons, hs, List.filter_cons]
      rw [h1, ih (some m), h2, getLast?_cons_or, Option.or_assoc]
      simp [resolverSpecResult]
    · by_cases hlt : sv.lt m.version (sv.coerce r)
      · rw [show findLastSatisfying sv r (m :: rest) acc = acc by
          simp [findLastSatisfying, hs, hlt]]
        simp [resolverSpecResult, List.takeWhile, hs, hlt]
      · rw [show findLastSatisfying sv r (m :: rest) acc
            = findLastSatisfying sv r rest acc by simp [findLastSatisfying, hs, hlt]]
        rw [ih acc]
        simp [resolverSpecResult, List.takeWhile, hs, hlt]

/-- Claim C1: for every required range and candidate list, the resolver scan
over the descending-sorted candidates stops at the first candidate that
neither satisfies the range nor is at or above the coerced baseline,
skips other non-satisfying candidates, lets every satisfying candidate
overwrite the recorded match, and returns the last recorded satisfying
candidate; concretely, for range `^1.0.0` over candidates
`[1.5.0, 1.2.0, 1.0.0, 0.9.0]` the sorted scan yields `1.0.0`, not
`1.5.0`. -/
theorem resolver_last_satisfying_scan :
    (∀ (sv : Semver) (requiredVersion : String) (candidates : List ModuleRecord),
      findLastSatisfying sv requiredVersion candidates none
        = resolverSpecResult sv requiredVersion candidates)
    ∧ (findLastSatisfying modelSemver "^1.0.0"
        (jsSort [exV "1.5.0", exV "1.2.0", exV "1.0.0", exV "0.9.0"]) none).map
        ModuleRecord.version = some "1.0.0"
    ∧ (findLastSatisfying modelSemver "^1.0.0"
        (jsSort [exV "1.5.0", exV "1.2.0", exV "1.0.0", exV "0.9.0"]) none).map
        ModuleRecord.version ≠ some "1.5.0" := by
  refine ⟨fun sv r candidates => ?_, rfl, by decide⟩
  rw [findLastSatisfying_eq_spec]
  simp

/-- Claim C5: `compareVersionsDescending` splits the two version strings on
`'.'`, converts each segment to an integer, and compares the segments
pairwise most-significant first, the first differing segment deciding the
order with the greater one sorting first; hence sorting
`["1.2.0", "1.10.0", "2.0.0"]` descending yields
`["2.0.0", "1.10.0", "1.2.0"]` (numeric, not lexicographic, comparison of
the second segment). -/
theorem comparator_numeric_descending :
    (∀ (a b : ModuleRecord) (as bs : List Int),
      versionParts a.version = as.map some →
      versionParts b.version = bs.map some →
      as.length = bs.length →
      compareVersionsDescending a b = specLexCompare as bs)
    ∧ (jsSort [exV "1.2.0", exV "1.10.0", exV "2.0.0"]).map ModuleRecord.version
        = ["2.0.0", "1.10.0", "1.2.0"] := by
  refine ⟨fun a b as bs ha hb hlen => ?_, rfl⟩
  rw [compareVersionsDescending, ha, hb, cmpParts_map_some as bs hlen]

/-- Witness for `comparator_numeric_descending` at the versions `1.2.0`
and `1.10.0`: the second segments decide numerically. -/
theorem comparator_numeric_descending_witness :
    compareVersionsDescending (exV "1.2.0") (exV "1.10.0") = specLexCompare [1, 2, 0] [1, 10, 0] :=
  comparator_numeric_descending.1 (exV "1.2.0") (exV "1.10.0") [1, 2, 0] [1, 10, 0]
    (by decide) (by decide) (by decide)

/-- Claim C10: a position at which the numeric comparison is undecidable (a
missing or non-numeric segment) never decides `compareVersionsDescending`:
whenever one segment list is a prefix of the other the comparator returns
`0` in both argument orders, and in particular the versions `1.2` and
`1.2.5` (and the non-numeric `1.2.beta` against `1.2.5`) compare as equal
both ways rather than raising an error or ordering by length. -/
theorem comparator_undecidable_segments :
    (∀ xs ys : List (Option Int), xs <+: ys → cmpParts xs ys = 0 ∧ cmpParts ys xs = 0)
    ∧ compareVersionsDescending (exV "1.2") (exV "1.2.5") = 0
    ∧ compareVersionsDescending (exV "1.2.5") (exV "1.2") = 0
    ∧ compareVersionsDescending (exV "1.2.beta") (exV "1.2.5") = 0
    ∧ compareVersionsDescending (exV "1.2.5") (exV "1.2.beta") = 0 := by
  refine ⟨fun xs ys hpre => ?_, rfl, rfl, rfl, rfl⟩
  obtain ⟨t, rfl⟩ := hpre
  exact ⟨cmpParts_append_right xs t, cmpParts_append_left xs t⟩

/-- Witness for `comparator_undecidable_segments` at the segment lists of
`1.2` and `1.2.5`. -/
theorem comparator_undecidable_segments_witness :
    cmpParts [some 1, some 2] [some 1, some 2, some 5] = 0
    ∧ cmpParts [some 1, some 2, some 5] [some 1, some 2] = 0 :=
  comparator_undecidable_segments.1 [some 1, some 2] [some 1, some 2, some 5]
    ⟨[some 5], rfl⟩

theorem jsGet_cons {α : Type} (k : String) (v : α) (m : List (String × α)) (n : String) :
    jsGet ((k, v) :: m) n = if k == n then some v else jsGet m n := by
  by_cases h : k == n
  · simp [jsGet, List.find?_cons_of_pos, h]
  · simp only [jsGet]
    rw [List.find?_cons_of_neg]
    · simp [h]
    · simpa using h

theorem jsGet_eq_none_iff {α : Type} (m : List (String × α)) (k : String) :
    jsGet m k = none ↔ k ∉ m.map Prod.fst := by
  simp only [jsGet, Option.map_eq_none', List.find?_eq_none, List.mem_map, beq_iff_eq]
  constructor
  · rintro h ⟨p, hp, rfl⟩
    exact h p hp rfl
  · intro h p hp he
    exact h ⟨p, hp, he⟩

theorem hoistRun_copyMap_mono (env : HoistEnv) :
    ∀ (fuel : Nat) (c : HCall) (st : HState) (n : String) (m : ModuleRecord),
    jsGet st.copyMap n = some m →
    jsGet (hoistRun env fuel c st).2.copyMap n = some m := by
  intro fuel
  induction fuel with
  | zero => intro c st n m h; simpa [hoistRun] using h
  | succ fuel ih =>
    intro c st n m h
    cases c with
    | cdep1 module requiredVersion requiredBy depStack =>
      simp only [hoistRun]
      cases hc : jsGet st.copyMap module.name with
      | some existingCopy =>
        by_cases hs : env.sv.satisfies existingCopy.version requiredVersion
        · simpa [hs] using h
        · simp only [hs, Bool.false_eq_true, if_false]
          exact ih _ _ n m h
      | none =>
        have hne : (module.name == n) = false := by
          simp only [beq_eq_false_iff_ne]
          rintro rfl
          rw [h] at hc
          exact Option.noConfusion hc
        refine ih _ _ n m ?_
        rw [jsGet_cons, hne]
        simpa using h
    | cdep depTree moduleName requiredVersion depStack =>
      simp only [hoistRun]
      split
      · exact ih _ _ n m h
      · split
        · simpa using h
        · split
          · exact ih _ _ n m h
          · simpa using h
    | cdeps depTree want depStack =>
      cases want with
      | nil => simpa [hoistRun] using h
      | cons hd rest =>
        simp only [hoistRun]
        exact ih _ _ n m (ih _ _ n m h)

theorem hoistRun_events (env : HoistEnv) :
    ∀ (fuel : Nat) (c : HCall) (st : HState), ∃ evs : List (String × String),
    (hoistRun env fuel c st).2.copies = evs ++ st.copies ∧
    (hoistRun env fuel c st).2.assigns = evs ++ st.assigns := by
  intro fuel
  induction fuel with
  | zero => intro c st; exact ⟨[], rfl, rfl⟩
  | succ fuel ih =>
    intro c st
    cases c with
    | cdep1 module requiredVersion requiredBy depStack =>
      simp only [hoistRun]
      split
      · split
        · exact ⟨[], rfl, rfl⟩
        · set v := pjoin (pjoin ((jsGet st.targetDirs requiredBy.dir).getD "undefined")
            "node_modules") module.name with hv
          obtain ⟨evs, h1, h2⟩ := ih (HCall.cdeps module module.wantDependencies depStack)
            ⟨st.copyMap, objSet st.targetDirs module.dir v,
              (module.dir, v) :: st.copies, (module.dir, v) :: st.assigns,
              st.logs, st.rootPlacements⟩
          exact ⟨evs ++ [(module.dir, v)],
            by rw [h1]; simp, by rw [h2]; simp⟩
      · set v := pjoin env.targetDir module.name with hv
        next hnone =>
        obtain ⟨evs, h1, h2⟩ := ih (HCall.cdeps module module.wantDependencies depStack)
          ⟨(module.name, module) :: st.copyMap, objSet st.targetDirs module.dir v,
            (module.dir, v) :: st.copies, (module.dir, v) :: st.assigns,
            st.logs, module.name :: st.rootPlacements⟩
        exact ⟨evs ++ [(module.dir, v)],
          by rw [h1]; simp, by rw [h2]; simp⟩
    | cdep depTree moduleName requiredVersion depStack =>
      simp only [hoistRun]
      split
      · exact ih _ _
      · split
        · exact ⟨[], rfl, rfl⟩
        · split
          · exact ih _ _
          · exact ⟨[], rfl, rfl⟩
    | cdeps depTree want depStack =>
      cases want with
      | nil => exact ⟨[], rfl, rfl⟩
      | cons hd rest =>
        obtain ⟨moduleName, requiredVersion⟩ := hd
        simp only [hoistRun]
        obtain ⟨evs1, h11, h12⟩ := ih (HCall.cdep depTree moduleName requiredVersion depStack) st
        obtain ⟨evs2, h21, h22⟩ := ih (HCall.cdeps depTree rest depStack)
          (hoistRun env fuel (HCall.cdep depTree moduleName requiredVersion depStack) st).2
        exact ⟨evs2 ++ evs1,
          by rw [h21, h11, List.append_assoc], by rw [h22, h12, List.append_assoc]⟩

theorem hoistRun_copyMapInv (env : HoistEnv) :
    ∀ (fuel : Nat) (c : HCall) (st : HState), CopyMapInv st →
    CopyMapInv (hoistRun env fuel c st).2 := by
  intro fuel
  induction fuel with
  | zero => intro c st h; simpa [hoistRun] using h
  | succ fuel ih =>
    intro c st h
    cases c with
    | cdep1 module requiredVersion requiredBy depStack =>
      simp only [hoistRun]
      split
      · split
        · exact h
        · exact ih _ _ ⟨h.1, h.2.1, h.2.2⟩
      · next hnone =>
        apply ih
        obtain ⟨h1, h2, h3⟩ := h
        have hnotin : module.name ∉ st.copyMap.map Prod.fst :=
          (jsGet_eq_none_iff _ _).mp hnone
        have hnotrp : module.name ∉ st.rootPlacements := by
          intro hmem
          have hsome := h3 _ hmem
          rw [hnone] at hsome
          simp at hsome
        refine ⟨?_, ?_, ?_⟩
        · exact List.nodup_cons.mpr ⟨hnotin, h1⟩
        · exact List.nodup_cons.mpr ⟨hnotrp, h2⟩
        · intro n hn
          by_cases he : module.name = n
          · subst he
            simp [jsGet_cons]
          · have hbe : (module.name == n) = false := by simpa using he
            rw [jsGet_cons, hbe]
            simp only [Bool.false_eq_true, if_false]
            rcases List.mem_cons.mp hn with h4 | h4
            · exact absurd h4.symm he
            · exact h3 _ h4
    | cdep depTree moduleName requiredVersion depStack =>
      simp only [hoistRun]
      split
      · exact ih _ _ h
      · split
        · exact h
        · split
          · exact ih _ _ h
          · exact h
    | cdeps depTree want depStack =>
      cases want with
      | nil => exact h
      | cons hd rest =>
        obtain ⟨moduleName, requiredVersion⟩ := hd
        simp only [hoistRun]
        exact ih _ _ (ih _ _ h)

theorem hoistRun_copies_mem (env : HoistEnv) (fuel : Nat) (c : HCall) (st : HState)
    (x : String × String) (h : x ∈ st.copies) :
    x ∈ (hoistRun env fuel c st).2.copies := by
  obtain ⟨evs, hc, _⟩ := hoistRun_events env fuel c st
  rw [hc]
  exact List.mem_append_right _ h

theorem hoistRun_assigns_mem (env : HoistEnv) (fuel : Nat) (c : HCall) (st : HState)
    (x : String × String) (h : x ∈ st.assigns) :
    x ∈ (hoistRun env fuel c st).2.assigns := by
  obtain ⟨evs, _, ha⟩ := hoistRun_events env fuel c st
  rw [ha]
  exact List.mem_append_right _ h

/-- Claim C3: throughout a single hoist run the `copyMap` holds at most one
entry per package name and grows monotonically: an entry, once inserted
for a name, is never replaced or removed by any later hoisting step, and
at most one directory per name is ever placed at the target root. -/
theorem copyMap_monotone_unique (env : HoistEnv) (fuel : Nat) (c : HCall) (st : HState)
    (h1 : (st.copyMap.map Prod.fst).Nodup) (h2 : st.rootPlacements.Nodup)
    (h3 : ∀ n ∈ st.rootPlacements, (jsGet st.copyMap n).isSome) :
    (∀ (n : String) (m : ModuleRecord), jsGet st.copyMap n = some m →
      jsGet (hoistRun env fuel c st).2.copyMap n = some m)
    ∧ ((hoistRun env fuel c st).2.copyMap.map Prod.fst).Nodup
    ∧ (hoistRun env fuel c st).2.rootPlacements.Nodup := by
  have hinv := hoistRun_copyMapInv env fuel c st ⟨h1, h2, h3⟩
  exact ⟨fun n m hm => hoistRun_copyMap_mono env fuel c st n m hm, hinv.1, hinv.2.1⟩

/-- Witness for `copyMap_monotone_unique` on the empty initial state of
the worked scenario. -/
theorem copyMap_monotone_unique_witness :
    (∀ (n : String) (m : ModuleRecord),
      jsGet (⟨[], [("R", "T")], [], [], [], []⟩ : HState).copyMap n = some m →
      jsGet (hoistRun envC4 12 (HCall.cdeps rootC4 rootC4.wantDependencies [rootC4])
        ⟨[], [("R", "T")], [], [], [], []⟩).2.copyMap n = some m)
    ∧ ((hoistRun envC4 12 (HCall.cdeps rootC4 rootC4.wantDependencies [rootC4])
        ⟨[], [("R", "T")], [], [], [], []⟩).2.copyMap.map Prod.fst).Nodup
    ∧ (hoistRun envC4 12 (HCall.cdeps rootC4 rootC4.wantDependencies [rootC4])
        ⟨[], [("R", "T")], [], [], [], []⟩).2.rootPlacements.Nodup :=
  copyMap_monotone_unique envC4 12 (HCall.cdeps rootC4 rootC4.wantDependencies [rootC4])
    ⟨[], [("R", "T")], [], [], [], []⟩ (by simp) (by simp) (by simp)

/-- Claim C2: the placement decision of `_copyDependency` for a resolved
dependency is exactly one of three cases.  No `copyMap` entry for the
name: the source directory is copied to `target/<name>`, the record is
inserted into the `copyMap`, and its `targetDir` is assigned.  An entry
whose version satisfies the required range: no copy, no further action,
return value `0`.  An entry whose version does not satisfy: the chosen
source is copied to `<requirerTargetDir>/node_modules/<name>` and the
`copyMap` entry for the name is left unchanged. -/
theorem placement_three_cases (env : HoistEnv) (fuel : Nat)
    (module requiredBy : ModuleRecord) (requiredVersion : String)
    (depStack : List ModuleRecord) (st : HState) :
    (jsGet st.copyMap module.name = none →
      (module.dir, pjoin env.targetDir module.name)
          ∈ (hoistRun env (fuel + 1)
            (HCall.cdep1 module requiredVersion requiredBy depStack) st).2.copies
        ∧ jsGet (hoistRun env (fuel + 1)
            (HCall.cdep1 module requiredVersion requiredBy depStack) st).2.copyMap
            module.name = some module
        ∧ (module.dir, pjoin env.targetDir module.name)
          ∈ (hoistRun env (fuel + 1)
            (HCall.cdep1 module requiredVersion requiredBy depStack) st).2.assigns)
    ∧ (∀ existingCopy : ModuleRecord,
      jsGet st.copyMap module.name = some existingCopy →
      env.sv.satisfies existingCopy.version requiredVersion = true →
      hoistRun env (fuel + 1) (HCall.cdep1 module requiredVersion requiredBy depStack) st
        = (0, st))
    ∧ (∀ (existingCopy : ModuleRecord) (rtd : String),
      jsGet st.copyMap module.name = some existingCopy →
      env.sv.satisfies existingCopy.version requiredVersion = false →
      jsGet st.targetDirs requiredBy.dir = some rtd →
      (module.dir, pjoin (pjoin rtd "node_modules") module.name)
          ∈ (hoistRun env (fuel + 1)
            (HCall.cdep1 module requiredVersion requiredBy depStack) st).2.copies
        ∧ jsGet (hoistRun env (fuel + 1)
            (HCall.cdep1 module requiredVersion requiredBy depStack) st).2.copyMap
            module.name = some existingCopy) := by
  refine ⟨fun hnone => ?_, fun e he hs => ?_, fun e rtd he hs hrtd => ?_⟩
  · simp only [hoistRun, hnone]
    refine ⟨?_, ?_, ?_⟩
    · exact hoistRun_copies_mem env fuel _ _ _ (List.mem_cons_self _ _)
    · apply hoistRun_copyMap_mono
      show jsGet ((module.name, module) :: st.copyMap) module.name = some module
      rw [jsGet_cons]
      simp
    · exact hoistRun_assigns_mem env fuel _ _ _ (List.mem_cons_self _ _)
  · simp [hoistRun, he, hs]
  · simp only [hoistRun, he, hs, Bool.false_eq_true, if_false, hrtd, Option.getD_some]
    refine ⟨?_, ?_⟩
    · exact hoistRun_copies_mem env fuel _ _ _ (List.mem_cons_self _ _)
    · exact hoistRun_copyMap_mono env fuel _ _ _ _ he

/-- Witness for `placement_three_cases`: the three cases exercised on
concrete states of the worked scenario. -/
theorem placement_three_cases_witness :
    ((barLocal.dir, pjoin envC4.targetDir barLocal.name)
        ∈ (hoistRun envC4 (10 + 1) (HCall.cdep1 barLocal "1.0.0" rootC4 [barLocal, rootC4])
          ⟨[], [("R", "T")], [], [], [], []⟩).2.copies
      ∧ jsGet (hoistRun envC4 (10 + 1) (HCall.cdep1 barLocal "1.0.0" rootC4 [barLocal, rootC4])
          ⟨[], [("R", "T")], [], [], [], []⟩).2.copyMap barLocal.name = some barLocal
      ∧ (barLocal.dir, pjoin envC4.targetDir barLocal.name)
        ∈ (hoistRun envC4 (10 + 1) (HCall.cdep1 barLocal "1.0.0" rootC4 [barLocal, rootC4])
          ⟨[], [("R", "T")], [], [], [], []⟩).2.assigns)
    ∧ hoistRun envC4 (10 + 1) (HCall.cdep1 barLocal "^1.0.0" rootC4 [barLocal, rootC4])
        ⟨[("bar", barLocal)], [("R", "T")], [], [], [], []⟩
        = (0, ⟨[("bar", barLocal)], [("R", "T")], [], [], [], []⟩)
    ∧ ((bar2.dir, pjoin (pjoin "T/A" "node_modules") bar2.name)
        ∈ (hoistRun envC4 (10 + 1) (HCall.cdep1 bar2 "2.0.0" modA [bar2, modA])
          ⟨[("bar", barLocal)], [("R", "T"), ("R/node_modules/A", "T/A")],
            [], [], [], []⟩).2.copies
      ∧ jsGet (hoistRun envC4 (10 + 1) (HCall.cdep1 bar2 "2.0.0" modA [bar2, modA])
          ⟨[("bar", barLocal)], [("R", "T"), ("R/node_modules/A", "T/A")],
            [], [], [], []⟩).2.copyMap bar2.name = some barLocal) :=
  ⟨(placement_three_cases envC4 10 barLocal rootC4 "1.0.0" [barLocal, rootC4] _).1 rfl,
   (placement_three_cases envC4 10 barLocal rootC4 "^1.0.0" [barLocal, rootC4] _).2.1
     barLocal rfl rfl,
   (placement_three_cases envC4 10 bar2 modA "2.0.0" [bar2, modA] _).2.2
     barLocal "T/A" rfl rfl rfl⟩

/-- Counterexample to C4: in the worked scenario the shared store record
`bar@2.0.0` (identified by its directory `S/bar2`) has its `targetDir`
property assigned twice during one hoist run — once for each nested
conflict copy placed under `A` and under `B` — so the field is not
assigned exactly once for every record. -/
theorem targetDir_assigned_twice :
    ((hoistModel envC4 12 rootC4).2.assigns.filter (fun e => e.1 == bar2.dir)).length = 2 := rfl

/-- Claim C4 amended: a record's `targetDir` is assigned exactly when a physical
copy is made for that record — every hoisting step extends the copy log
and the assignment log by the same list of (record directory, destination)
events — so a record is assigned once per copy of it, and a shared store
record copied into several nested conflict locations is assigned once per
such copy rather than at most once per run. -/
theorem targetDir_assigned_per_copy (env : HoistEnv) (fuel : Nat) (c : HCall) (st : HState) :
    ∃ evs : List (String × String),
      (hoistRun env fuel c st).2.copies = evs ++ st.copies
      ∧ (hoistRun env fuel c st).2.assigns = evs ++ st.assigns :=
  hoistRun_events env fuel c st

theorem jsJoin_mem_isInfix (sep : String) (f : ModuleRecord → String) :
    ∀ (l : List ModuleRecord) (m : ModuleRecord), m ∈ l →
    (f m).data <:+: (jsJoin sep (l.map f)).data := by
  intro l
  induction l with
  | nil => intro m hm; simp at hm
  | cons x xs ih =>
    intro m hm
    rcases List.mem_cons.mp hm with rfl | hm2
    · cases xs with
      | nil => exact List.infix_rfl
      | cons y ys =>
        show (f m).data <:+: (f m ++ sep ++ jsJoin sep (f y :: ys.map f)).data
        rw [String.data_append, String.data_append, List.append_assoc]
        exact (List.prefix_append _ _).isInfix
    · cases xs with
      | nil => simp at hm2
      | cons y ys =>
        have hIH := ih m hm2
        show (f m).data <:+: (f x ++ sep ++ jsJoin sep (f y :: ys.map f)).data
        rw [String.data_append, String.data_append]
        exact hIH.trans (List.suffix_append _ _).isInfix

theorem stackString_chain_isInfix (depStack : List ModuleRecord) (m : ModuleRecord)
    (hm : m ∈ depStack) :
    ("\t" ++ m.name ++ ":" ++ m.version).data <:+: (stackString depStack).data :=
  jsJoin_mem_isInfix "\r\n" (fun module => "\t" ++ module.name ++ ":" ++ module.version)
    depStack m hm

theorem chain_isInfix_unresolvedMissingMsg (moduleName requiredVersion : String)
    (depStack : List ModuleRecord) (m : ModuleRecord) (hm : m ∈ depStack) :
    ("\t" ++ m.name ++ ":" ++ m.version).data
      <:+: (unresolvedMissingMsg moduleName requiredVersion depStack).data := by
  refine (stackString_chain_isInfix depStack m hm).trans ?_
  rw [unresolvedMissingMsg, String.data_append]
  exact (List.suffix_append _ _).isInfix

theorem chain_isInfix_unresolvedNoVersionMsg (moduleName requiredVersion : String)
    (cachedModuleVersions depStack : List ModuleRecord) (m : ModuleRecord)
    (hm : m ∈ depStack) :
    ("\t" ++ m.name ++ ":" ++ m.version).data
      <:+: (unresolvedNoVersionMsg moduleName requiredVersion
        cachedModuleVersions depStack).data := by
  refine (stackString_chain_isInfix depStack m hm).trans ?_
  rw [unresolvedNoVersionMsg, String.data_append]
  exact (List.suffix_append _ _).isInfix

theorem hoistRun_cdeps_cons (env : HoistEnv) (fuel : Nat) (depTree : ModuleRecord)
    (moduleName requiredVersion : String) (rest : List (String × String))
    (depStack : List ModuleRecord) (st : HState) :
    hoistRun env (fuel + 1)
        (HCall.cdeps depTree ((moduleName, requiredVersion) :: rest) depStack) st
      = ((hoistRun env fuel (HCall.cdep depTree moduleName requiredVersion depStack) st).1
          + (hoistRun env fuel (HCall.cdeps depTree rest depStack)
              (hoistRun env fuel
                (HCall.cdep depTree moduleName requiredVersion depStack) st).2).1,
         (hoistRun env fuel (HCall.cdeps depTree rest depStack)
            (hoistRun env fuel
              (HCall.cdep depTree moduleName requiredVersion depStack) st).2).2) := rfl

set_option maxHeartbeats 1000000 in
/-- Claim C6: a required dependency satisfied neither by a local installed copy
nor by any store-index version (including the name being absent from the
index entirely) makes the hoister log one diagnostic containing the
requirer chain (a `name:version` line per stack level), contribute `0` to
the copy count for that dependency, and continue with the remaining
sibling dependencies of the same requirer rather than aborting the run. -/
theorem unresolved_logged_and_continues (env : HoistEnv) (fuel : Nat)
    (depTree : ModuleRecord) (moduleName requiredVersion : String)
    (depStack : List ModuleRecord) (st : HState) (rest : List (String × String))
    (hinst : jsGet depTree.installedDependencies moduleName = none)
    (hfail : jsGet env.cachedModuleMap moduleName = none ∨
      ∃ cachedModule, jsGet env.cachedModuleMap moduleName = some cachedModule ∧
        findLastSatisfying env.sv requiredVersion
          (jsSort (cachedModule.map (fun p => p.2))) none = none) :
    ∃ msg : String,
      hoistRun env (fuel + 1) (HCall.cdep depTree moduleName requiredVersion depStack) st
        = (0, { st with logs := msg :: st.logs })
      ∧ (∀ m ∈ depStack, ("\t" ++ m.name ++ ":" ++ m.version).data <:+: msg.data)
      ∧ hoistRun env (fuel + 1 + 1)
          (HCall.cdeps depTree ((moduleName, requiredVersion) :: rest) depStack) st
        = hoistRun env (fuel + 1) (HCall.cdeps depTree rest depStack)
            { st with logs := msg :: st.logs } := by
  rcases hfail with hcm | ⟨cachedModule, hcm, hscan⟩
  · have h1 : hoistRun env (fuel + 1)
        (HCall.cdep depTree moduleName requiredVersion depStack) st
        = (0, { st with
            logs := unresolvedMissingMsg moduleName requiredVersion depStack :: st.logs }) := by
      simp only [hoistRun, hinst, hcm]
    refine ⟨unresolvedMissingMsg moduleName requiredVersion depStack, h1, ?_, ?_⟩
    · intro m hm
      exact chain_isInfix_unresolvedMissingMsg moduleName requiredVersion depStack m hm
    · rw [hoistRun_cdeps_cons, h1]
      simp
  · have h1 : hoistRun env (fuel + 1)
        (HCall.cdep depTree moduleName requiredVersion depStack) st
        = (0, { st with
            logs := unresolvedNoVersionMsg moduleName requiredVersion
              (jsSort (cachedModule.map (fun p => p.2))) depStack :: st.logs }) := by
      simp only [hoistRun, hinst, hcm, hscan]
    exact ⟨_, h1, fun m hm => chain_isInfix_unresolvedNoVersionMsg moduleName requiredVersion
        _ depStack m hm,
      by rw [hoistRun_cdeps_cons, h1]; simp⟩

/-- Witness for `unresolved_logged_and_continues`: the name `nope` is
neither locally installed nor present in the cache index. -/
theorem unresolved_logged_and_continues_witness :
    ∃ msg : String,
      hoistRun envC4 (3 + 1) (HCall.cdep rootC4 "nope" "^1.0.0" [rootC4]) stInit
        = (0, { stInit with logs := msg :: stInit.logs })
      ∧ (∀ m ∈ [rootC4], ("\t" ++ m.name ++ ":" ++ m.version).data <:+: msg.data)
      ∧ hoistRun envC4 (3 + 1 + 1)
          (HCall.cdeps rootC4 [("nope", "^1.0.0")] [rootC4]) stInit
        = hoistRun envC4 (3 + 1) (HCall.cdeps rootC4 [] [rootC4])
            { stInit with logs := msg :: stInit.logs } :=
  unresolved_logged_and_continues envC4 3 rootC4 "nope" "^1.0.0" [rootC4] stInit []
    rfl (Or.inl rfl)

/-- Claim C8: at each resolution decision of `copyDependency`, a locally
installed record for the required name is used directly — the step
reduces to `_copyDependency` on that record, an equation uniform in the
store index, which is therefore not consulted for that decision — and the
store index is looked up only when no local installed copy exists, the
chosen record then coming from the resolver scan over the store
versions. -/
theorem local_install_precedes_store (env : HoistEnv) (fuel : Nat)
    (depTree : ModuleRecord) (moduleName requiredVersion : String)
    (depStack : List ModuleRecord) (st : HState) :
    (∀ installedModule : ModuleRecord,
      jsGet depTree.installedDependencies moduleName = some installedModule →
      hoistRun env (fuel + 1) (HCall.cdep depTree moduleName requiredVersion depStack) st
        = hoistRun env fuel
            (HCall.cdep1 installedModule requiredVersion depTree
              (installedModule :: depStack)) st)
    ∧ (∀ (cachedModule : List (String × ModuleRecord)) (chosen : ModuleRecord),
      jsGet depTree.installedDependencies moduleName = none →
      jsGet env.cachedModuleMap moduleName = some cachedModule →
      findLastSatisfying env.sv requiredVersion
        (jsSort (cachedModule.map (fun p => p.2))) none = some chosen →
      hoistRun env (fuel + 1) (HCall.cdep depTree moduleName requiredVersion depStack) st
        = hoistRun env fuel
            (HCall.cdep1 chosen requiredVersion depTree (chosen :: depStack)) st) := by
  constructor
  · intro installedModule hinst
    simp only [hoistRun, hinst]
  · intro cachedModule chosen hinst hcm hscan
    simp only [hoistRun, hinst, hcm, hscan]

/-- Witness for `local_install_precedes_store`: `bar` is locally installed
under the root and used directly; under `A` it is not installed and the
store record `bar@2.0.0` is chosen. -/
theorem local_install_precedes_store_witness :
    (hoistRun envC4 (5 + 1) (HCall.cdep rootC4 "bar" "1.0.0" [rootC4]) stInit
      = hoistRun envC4 5 (HCall.cdep1 barLocal "1.0.0" rootC4 [barLocal, rootC4]) stInit)
    ∧ (hoistRun envC4 (5 + 1) (HCall.cdep modA "bar" "2.0.0" [modA, rootC4]) stInit
      = hoistRun envC4 5 (HCall.cdep1 bar2 "2.0.0" modA (bar2 :: [modA, rootC4])) stInit) :=
  ⟨(local_install_precedes_store envC4 5 rootC4 "bar" "1.0.0" [rootC4] stInit).1
      barLocal rfl,
   (local_install_precedes_store envC4 5 modA "bar" "2.0.0" [modA, rootC4] stInit).2
      [("2.0.0", bar2)] bar2 rfl rfl rfl⟩

theorem copyDirEntries_mem (entries : List (String × FsEntry)) (n : String) (e : FsEntry)
    (hmem : (n, e) ∈ entries) (hne : n ≠ "node_modules") :
    (n, copyTree e) ∈ copyDirEntries entries := by
  induction entries with
  | nil => simp at hmem
  | cons p rest ih =>
    obtain ⟨k, x⟩ := p
    rcases List.mem_cons.mp hmem with heq | hmem2
    · obtain ⟨rfl, rfl⟩ := Prod.mk.injEq .. ▸ heq
      simp only [copyDirEntries]
      rw [if_pos (by simpa using hne)]
      exact List.mem_cons_self _ _
    · simp only [copyDirEntries]
      split
      · exact List.mem_cons_of_mem _ (ih hmem2)
      · exact ih hmem2

theorem copyDirEntries_not_node_modules (entries : List (String × FsEntry)) (e : FsEntry) :
    ("node_modules", e) ∉ copyDirEntries entries := by
  induction entries with
  | nil => simp [copyDirEntries]
  | cons p rest ih =>
    obtain ⟨k, x⟩ := p
    simp only [copyDirEntries]
    split
    · next hk =>
      intro hmem
      rcases List.mem_cons.mp hmem with heq | hmem2
      · injection heq with h1 h2
        rw [h1] at hk
        simp at hk
      · exact ih hmem2
    · exact ih

theorem noNodeModules_copyTree_aux : ∀ N : Nat,
    (∀ t : FsEntry, sizeOf t ≤ N → noNodeModules (copyTree t) = true)
    ∧ (∀ entries : List (String × FsEntry), sizeOf entries ≤ N →
      noNodeModulesEntries (copyDirEntries entries) = true) := by
  intro N
  induction N with
  | zero =>
    constructor
    · intro t ht
      exfalso
      cases t <;> simp_arith at ht
    · intro entries hes
      exfalso
      cases entries <;> simp_arith at hes
  | succ N ih =>
    constructor
    · intro t ht
      cases t with
      | file content => simp [copyTree, noNodeModules]
      | dir entries =>
        have hsz : sizeOf entries ≤ N := by
          simp only [FsEntry.dir.sizeOf_spec] at ht
          omega
        simp only [copyTree, noNodeModules]
        exact ih.2 entries hsz
    · intro entries hes
      cases entries with
      | nil => simp [copyDirEntries, noNodeModulesEntries]
      | cons p rest =>
        obtain ⟨k, x⟩ := p
        have hx : sizeOf x ≤ N ∧ sizeOf rest ≤ N := by
          simp only [List.cons.sizeOf_spec, Prod.mk.sizeOf_spec] at hes
          omega
        by_cases hk : k = "node_modules"
        · rw [show copyDirEntries ((k, x) :: rest) = copyDirEntries rest by
            simp [copyDirEntries, hk]]
          exact ih.2 rest hx.2
        · rw [show copyDirEntries ((k, x) :: rest)
              = (k, copyTree x) :: copyDirEntries rest by simp [copyDirEntries, hk]]
          simp only [noNodeModulesEntries, Bool.and_eq_true]
          exact ⟨⟨by simpa using hk, ih.1 x hx.1⟩, ih.2 rest hx.2⟩

/-- Claim C7: the directory copier copies every entry of the source into the
destination, recursing into subdirectories, except any entry named
`node_modules`, which never appears in the result; consequently the copy
of a package directory contains no `node_modules` entry at any depth. -/
theorem copyDir_excludes_node_modules :
    (∀ (entries : List (String × FsEntry)) (n : String) (e : FsEntry),
      (n, e) ∈ entries → n ≠ "node_modules" → (n, copyTree e) ∈ copyDirEntries entries)
    ∧ (∀ (entries : List (String × FsEntry)) (e : FsEntry),
      ("node_modules", e) ∉ copyDirEntries entries)
    ∧ (∀ t : FsEntry, noNodeModules (copyTree t) = true) :=
  ⟨fun entries n e hmem hne => copyDirEntries_mem entries n e hmem hne,
   fun entries e => copyDirEntries_not_node_modules entries e,
   fun t => (noNodeModules_copyTree_aux (sizeOf t)).1 t (Nat.le_refl _)⟩

/-- Witness for `copyDir_excludes_node_modules` on a two-entry directory
holding a file and a `node_modules` subdirectory. -/
theorem copyDir_excludes_node_modules_witness :
    ("index.js", copyTree (FsEntry.file "x"))
      ∈ copyDirEntries [("index.js", FsEntry.file "x"), ("node_modules", FsEntry.dir [])] :=
  copyDir_excludes_node_modules.1
    [("index.js", FsEntry.file "x"), ("node_modules", FsEntry.dir [])]
    "index.js" (FsEntry.file "x") (List.mem_cons_self _ _) (by decide)

theorem jsGet_map_replace {α : Type} (m : List (String × α)) (k : String) (v : α)
    (hany : m.any (fun p => p.1 == k) = true) :
    jsGet (m.map (fun p => if p.1 == k then (k, v) else p)) k = some v := by
  induction m with
  | nil => simp at hany
  | cons p rest ih =>
    obtain ⟨a, b⟩ := p
    by_cases ha : (a == k) = true
    · simp only [List.map_cons, ha, if_true]
      rw [jsGet_cons]
      simp
    · simp only [List.map_cons, ha, if_false]
      rw [jsGet_cons, if_neg (by simp_all)]
      refine ih ?_
      simp only [List.any_cons, ha, Bool.false_or] at hany
      exact hany

theorem jsGet_append_single {α : Type} (m : List (String × α)) (k : String) (v : α)
    (hany : m.any (fun p => p.1 == k) = false) :
    jsGet (m ++ [(k, v)]) k = some v := by
  induction m with
  | nil =>
    rw [List.nil_append, jsGet_cons]
    simp
  | cons p rest ih =>
    obtain ⟨a, b⟩ := p
    simp only [List.any_cons, Bool.or_eq_false_iff] at hany
    rw [List.cons_append, jsGet_cons, if_neg (by simp_all)]
    exact ih hany.2

theorem jsGet_objSet {α : Type} (m : List (String × α)) (k : String) (v : α) :
    jsGet (objSet m k v) k = some v := by
  rw [objSet]
  split
  · next hany => exact jsGet_map_replace m k v hany
  · next hany =>
    refine jsGet_append_single m k v ?_
    cases hb : m.any (fun p => p.1 == k) <;> simp_all

theorem jsGet_map_replace_ne {α : Type} (m : List (String × α)) (k : String) (v : α)
    (n : String) (hne : k ≠ n) :
    jsGet (m.map (fun p => if p.1 == k then (k, v) else p)) n = jsGet m n := by
  induction m with
  | nil => rfl
  | cons p rest ih =>
    obtain ⟨a, b⟩ := p
    by_cases ha : (a == k) = true
    · simp only [List.map_cons, ha, if_true]
      rw [jsGet_cons, jsGet_cons, if_neg (by simp_all), if_neg (by simp_all)]
      exact ih
    · simp only [List.map_cons, ha, if_false]
      rw [jsGet_cons, jsGet_cons]
      by_cases han : (a == n) = true
      · simp [han]
      · rw [if_neg (by simp_all), if_neg (by simp_all)]
        exact ih

theorem jsGet_append_single_ne {α : Type} (m : List (String × α)) (k : String) (v : α)
    (n : String) (hne : k ≠ n) :
    jsGet (m ++ [(k, v)]) n = jsGet m n := by
  induction m with
  | nil =>
    rw [List.nil_append, jsGet_cons, if_neg (by simpa using hne)]
  | cons p rest ih =>
    obtain ⟨a, b⟩ := p
    rw [List.cons_append, jsGet_cons, jsGet_cons]
    by_cases han : (a == n) = true
    · simp [han]
    · rw [if_neg (by simp_all), if_neg (by simp_all)]
      exact ih

theorem jsGet_objSet_ne {α : Type} (m : List (String × α)) (k : String) (v : α)
    (n : String) (hne : k ≠ n) :
    jsGet (objSet m k v) n = jsGet m n := by
  rw [objSet]
  split
  · exact jsGet_map_replace_ne m k v n hne
  · exact jsGet_append_single_ne m k v n hne

theorem jsGet_objectAssign {α : Type} (upd : List (String × α)) :
    ∀ base : List (String × α), (upd.map Prod.fst).Nodup →
    ∀ n : String, jsGet (objectAssign base upd) n = (jsGet upd n).or (jsGet base n) := by
  induction upd with
  | nil => intro base _ n; simp [objectAssign, jsGet]
  | cons p us ih =>
    intro base hnd n
    obtain ⟨k0, v0⟩ := p
    have hnd2 : (us.map Prod.fst).Nodup := (List.nodup_cons.mp hnd).2
    have hk0 : k0 ∉ us.map Prod.fst := by
      simpa using (List.nodup_cons.mp hnd).1
    rw [show objectAssign base ((k0, v0) :: us) = objectAssign (objSet base k0 v0) us from rfl]
    rw [ih (objSet base k0 v0) hnd2 n, jsGet_cons]
    by_cases hn : k0 = n
    · subst hn
      rw [if_pos (by simp)]
      rw [(jsGet_eq_none_iff us k0).mpr hk0]
      simp [jsGet_objSet]
    · rw [if_neg (by simpa using hn), jsGet_objSet_ne base k0 v0 n hn]

/-- Claim C9: the `wantDependencies` of a built record equal the manifest's
declared dependencies mapping (defaulting to empty when absent); when
development mode is requested the development-only ranges are merged in on
top, a development range overriding the declared range for any name
present in both mappings. -/
theorem wantDependencies_from_manifest (packageJson : PackageJson) (options : BuildOptions) :
    (options.devDependencies = false →
      wantDependenciesOf packageJson options = packageJson.dependencies.getD [])
    ∧ (options.devDependencies = true →
      ((packageJson.devDependencies.getD []).map Prod.fst).Nodup →
      ∀ n : String,
        jsGet (wantDependenciesOf packageJson options) n
          = (jsGet (packageJson.devDependencies.getD []) n).or
            (jsGet (packageJson.dependencies.getD []) n)) := by
  constructor
  · intro hdev
    simp [wantDependenciesOf, hdev]
  · intro hdev hnd n
    simp only [wantDependenciesOf, hdev, if_true]
    exact jsGet_objectAssign (packageJson.devDependencies.getD []) _ hnd n

/-- Witness for `wantDependencies_from_manifest` on a manifest declaring
`a` and `b` with development ranges for `b` and `c`: without development
mode the declared mapping is returned unchanged, and with it the
development range for `b` overrides the declared one. -/
theorem wantDependencies_from_manifest_witness :
    (wantDependenciesOf
        ⟨"p", "1.0.0", some [("a", "1"), ("b", "2")], some [("b", "9"), ("c", "3")]⟩ ⟨false⟩
      = (some [("a", "1"), ("b", "2")] : Option (List (String × String))).getD [])
    ∧ jsGet (wantDependenciesOf
        ⟨"p", "1.0.0", some [("a", "1"), ("b", "2")], some [("b", "9"), ("c", "3")]⟩ ⟨true⟩) "b"
      = (jsGet ((some [("b", "9"), ("c", "3")] : Option (List (String × String))).getD []) "b").or
        (jsGet ((some [("a", "1"), ("b", "2")] : Option (List (String × String))).getD []) "b") :=
  ⟨(wantDependencies_from_manifest
      ⟨"p", "1.0.0", some [("a", "1"), ("b", "2")], some [("b", "9"), ("c", "3")]⟩ ⟨false⟩).1 rfl,
   (wantDependencies_from_manifest
      ⟨"p", "1.0.0", some [("a", "1"), ("b", "2")], some [("b", "9"), ("c", "3")]⟩ ⟨true⟩).2
      rfl (by decide) "b"⟩
